import Mathlib

/-!
Shallow embedding of the `@discordjs/collection` ordered map (`Collection<K, V>`,
a subclass of the JavaScript `Map`).  A collection is modelled as the ordered
list of its entries; `Map` iteration order is insertion order, so the list
order is the iteration order.  Each method of the source class is translated
into a Lean function over this representation, and the specification claims
are proved as theorems about those functions.
-/

set_option autoImplicit false
set_option linter.unusedSectionVars false

namespace DJS

open scoped List

/-- A `Collection<K, V>`: the ordered list of its `(key, value)` entries,
in iteration (insertion) order. -/
structure Collection (K V : Type) where
  entries : List (K × V)
deriving DecidableEq

variable {K V : Type} [DecidableEq K]

namespace Collection

/-- Models `Map#size`: number of stored entries. -/
def size (c : Collection K V) : Nat := c.entries.length

/-- Models `[...this.keys()]`: the keys in iteration order. -/
def keysList (c : Collection K V) : List K := c.entries.map Prod.fst

/-- Models `[...this.values()]`: the values in iteration order. -/
def valuesList (c : Collection K V) : List V := c.entries.map Prod.snd

/-- Models `Map#has(key)`. -/
def has (c : Collection K V) (k : K) : Bool := c.entries.any (fun e => e.1 = k)

/-- Models `Map#get(key)`: the value stored under `k`, if present. -/
def get (c : Collection K V) (k : K) : Option V :=
  (c.entries.find? (fun e => e.1 = k)).map Prod.snd

/-- Models `Map#set(key, value)`: update the existing entry in place (keeping its
position in the order), or append a new entry at the end of the order. -/
def set (c : Collection K V) (k : K) (v : V) : Collection K V :=
  if c.has k then ⟨c.entries.map (fun e => if e.1 = k then (e.1, v) else e)⟩
  else ⟨c.entries ++ [(k, v)]⟩

/-- Models `Map#delete(key)`: remove the entry with key `k`, if any. -/
def delete (c : Collection K V) (k : K) : Collection K V :=
  ⟨c.entries.filter (fun e => ¬(e.1 = k))⟩

/-- Well-formedness of the model: a JavaScript `Map` never stores two entries
with equal keys. -/
def WF (c : Collection K V) : Prop := (c.entries.map Prod.fst).Nodup

instance decidableWF (c : Collection K V) : Decidable c.WF :=
  inferInstanceAs (Decidable (c.entries.map Prod.fst).Nodup)

/-! ### Basic lemmas about the map primitives -/

theorem size_eq_length_values (c : Collection K V) : c.size = c.valuesList.length := by
  simp [size, valuesList]

theorem size_eq_length_keys (c : Collection K V) : c.size = c.keysList.length := by
  simp [size, keysList]

theorem has_iff_mem_keys (c : Collection K V) (k : K) :
    c.has k = true ↔ k ∈ c.keysList := by
  simp [has, keysList, List.any_eq_true]

theorem entry_eq_of_wf {c : Collection K V} (hwf : c.WF) {a b : K × V}
    (ha : a ∈ c.entries) (hb : b ∈ c.entries) (hk : a.1 = b.1) : a = b :=
  List.inj_on_of_nodup_map hwf ha hb hk

theorem get_eq_some_iff_of_wf {c : Collection K V} (hwf : c.WF) {k : K} {v : V} :
    c.get k = some v ↔ (k, v) ∈ c.entries := by
  constructor
  · intro h
    simp only [get, Option.map_eq_some'] at h
    obtain ⟨e, he, rfl⟩ := h
    have hm := List.mem_of_find?_eq_some he
    have hk : e.1 = k := by
      have := List.find?_some he
      simpa using this
    simpa [← hk] using hm
  · intro h
    simp only [get, Option.map_eq_some']
    obtain ⟨e, he, hke⟩ : ∃ e, c.entries.find? (fun e => e.1 = k) = some e ∧ e.1 = k := by
      have hs : ∃ e, c.entries.find? (fun e => e.1 = k) = some e := by
        rw [← Option.isSome_iff_exists]
        rw [List.find?_isSome]
        exact ⟨(k, v), h, by simp⟩
      obtain ⟨e, he⟩ := hs
      refine ⟨e, he, ?_⟩
      have := List.find?_some he
      simpa using this
    have he2 : e = (k, v) :=
      entry_eq_of_wf hwf (List.mem_of_find?_eq_some he) h (by simpa using hke)
    exact ⟨e, he, by simp [he2]⟩

theorem has_eq_true_of_mem {c : Collection K V} {k : K} {v : V}
    (h : (k, v) ∈ c.entries) : c.has k = true := by
  simp only [has, List.any_eq_true, decide_eq_true_eq]
  exact ⟨(k, v), h, rfl⟩

theorem exists_get_of_has {c : Collection K V} {k : K} (h : c.has k = true) :
    ∃ v, c.get k = some v := by
  simp only [has, List.any_eq_true, decide_eq_true_eq] at h
  obtain ⟨e, he, hk⟩ := h
  have : (c.entries.find? (fun e => e.1 = k)).isSome := by
    rw [List.find?_isSome]
    exact ⟨e, he, by simpa using hk⟩
  obtain ⟨e', he'⟩ := Option.isSome_iff_exists.mp this
  exact ⟨e'.2, by simp [get, he']⟩

/-! ### `reduce` (claim C1)

Source:

```
public reduce<T>(fn, initialValue?: T): T {
  let accumulator!: T;
  if (typeof initialValue !== 'undefined') {
    accumulator = initialValue;
    for (const [key, val] of this) accumulator = fn(accumulator, val, key, this);
    return accumulator;
  }
  let first = true;
  for (const [key, val] of this) {
    if (first) { accumulator = val as unknown as T; first = false; continue; }
    accumulator = fn(accumulator, val, key, this);
  }
  if (first) throw new TypeError('Reduce of empty collection with no initial value');
  return accumulator;
}
```

The missing-initial-value overload seeds the accumulator with the first
entry's value, so at runtime the accumulator type coincides with `V`; the
embedding therefore instantiates `T := V`.  The `first` flag together with the
uninitialised accumulator is modelled by folding with an `Option V`
accumulator that starts at `none`.  A thrown `TypeError` is modelled by
`Except.error` carrying the message string. -/

/-- One `fn(accumulator, value, key, collection)` step of the loop body. -/
def reduceStep (fn : V → V → K → V) (acc : Option V) (e : K × V) : Option V :=
  match acc with
  | none => some e.2
  | some a => some (fn a e.2 e.1)

/-- Models `Collection#reduce(fn, initialValue?)`. -/
def reduce (c : Collection K V) (fn : V → V → K → V) (initialValue : Option V) :
    Except String V :=
  match initialValue with
  | some init => .ok (c.entries.foldl (fun acc e => fn acc e.2 e.1) init)
  | none =>
    match c.entries.foldl (reduceStep fn) none with
    | none => .error "Reduce of empty collection with no initial value"
    | some a => .ok a

theorem foldl_reduceStep_some (fn : V → V → K → V) (l : List (K × V)) (a : V) :
    l.foldl (reduceStep fn) (some a) = some (l.foldl (fun acc e => fn acc e.2 e.1) a) := by
  induction l generalizing a with
  | nil => rfl
  | cons e l ih => simp [List.foldl_cons, reduceStep, ih]

/-- C1: `reduce(fn)` with no initial value on a non-empty collection seeds the
accumulator with the first entry's value and folds left-to-right over the
remaining entries; on an empty collection it fails with the
"Reduce of empty collection with no initial value" error, which is returned
to the caller; `reduce(fn, initial)` never raises and folds left-to-right over
all entries starting from `initial`. -/
theorem reduce_spec (c : Collection K V) (fn : V → V → K → V) :
    (c.entries = [] →
      c.reduce fn none = .error "Reduce of empty collection with no initial value") ∧
    (∀ k v rest, c.entries = (k, v) :: rest →
      c.reduce fn none = .ok (rest.foldl (fun acc e => fn acc e.2 e.1) v)) ∧
    (∀ init, c.reduce fn (some init) =
      .ok (c.entries.foldl (fun acc e => fn acc e.2 e.1) init)) := by
  refine ⟨?_, ?_, ?_⟩
  · intro h
    simp [reduce, h]
  · intro k v rest h
    simp [reduce, h, List.foldl_cons, reduceStep, foldl_reduceStep_some]
  · intro init
    rfl

/-- Witness for C1 at the spec's own test vector `{a:1, b:2, c:3}` (sum is 6)
and at the empty collection. -/
theorem reduce_spec_witness :
    (Collection.mk [("a", 1), ("b", 2), ("c", 3)] : Collection String Nat).reduce
        (fun acc v _ => acc + v) none = .ok 6 ∧
    (Collection.mk [] : Collection String Nat).reduce (fun acc v _ => acc + v) none =
        .error "Reduce of empty collection with no initial value" ∧
    (Collection.mk [("a", 1), ("b", 2), ("c", 3)] : Collection String Nat).reduce
        (fun acc v _ => acc + v) (some 10) = .ok 16 := by
  refine ⟨?_, ?_, ?_⟩
  · have h := (reduce_spec (Collection.mk [("a", 1), ("b", 2), ("c", 3)])
      (fun acc v _ => acc + v)).2.1 "a" 1 [("b", 2), ("c", 3)] rfl
    simpa using h
  · exact (reduce_spec (Collection.mk []) (fun acc v _ => acc + v)).1 rfl
  · have h := (reduce_spec (Collection.mk [("a", 1), ("b", 2), ("c", 3)])
      (fun acc v _ => acc + v)).2.2 10
    simpa using h

/-! ### `sweep` (claim C2)

Source:

```
public sweep(fn, thisArg?): number {
  const previousSize = this.size;
  for (const [key, val] of this) {
    if (fn(val, key, this)) this.delete(key);
  }
  return previousSize - this.size;
}
```

`for...of` over a JavaScript `Map` visits each entry present at the start
once, in order; deleting the entry currently being visited (the only mutation
`sweep` performs with a pure predicate) neither skips nor revisits entries.
The loop is therefore iteration over the entry list as of the start of the
call, threading the evolving collection through each step. -/

/-- The `sweep` loop: walk the start-of-call entry list, deleting each entry
whose value satisfies the predicate from the evolving collection. -/
def sweepGo (P : V → K → Bool) : List (K × V) → Collection K V → Collection K V
  | [], c => c
  | e :: rest, c => sweepGo P rest (if P e.2 e.1 then c.delete e.1 else c)

/-- Models `Collection#sweep(fn)`: returns the number of removed entries together
with the collection after removal (`previousSize` is read before the loop). -/
def sweep (c : Collection K V) (P : V → K → Bool) : Nat × Collection K V :=
  (c.size - (sweepGo P c.entries c).size, sweepGo P c.entries c)

theorem sweepGo_entries (P : V → K → Bool) (l : List (K × V)) (c : Collection K V) :
    (sweepGo P l c).entries =
      c.entries.filter (fun e => !(l.any (fun x => P x.2 x.1 && x.1 = e.1))) := by
  induction l generalizing c with
  | nil => simp [sweepGo]
  | cons x rest ih =>
    by_cases hP : P x.2 x.1
    · have hstep : sweepGo P (x :: rest) c = sweepGo P rest (c.delete x.1) := by
        simp [sweepGo, hP]
      rw [hstep, ih, delete, List.filter_filter]
      apply List.filter_congr
      intro e _
      by_cases hk : x.1 = e.1
      · have h1 : (decide ¬(e.1 = x.1)) = false := by simp [hk.symm]
        have h2 : ((x :: rest).any fun y => P y.2 y.1 && decide (y.1 = e.1)) = true := by
          simp only [List.any_eq_true]
          refine ⟨x, List.mem_cons_self x rest, ?_⟩
          rw [hP, hk]
          simp
        simp [h1, h2]
      · have hk' : ¬(e.1 = x.1) := fun h => hk h.symm
        have h1 : (decide ¬(e.1 = x.1)) = true := by simp [hk']
        have h2 : ((x :: rest).any fun y => P y.2 y.1 && decide (y.1 = e.1)) =
            (rest.any fun y => P y.2 y.1 && decide (y.1 = e.1)) := by
          simp [List.any_cons, hk]
        simp [h1, h2]
    · have hstep : sweepGo P (x :: rest) c = sweepGo P rest c := by
        simp [sweepGo, hP]
      rw [hstep, ih]
      apply List.filter_congr
      intro e _
      simp [List.any_cons, hP]

theorem length_filter_not_add_length_filter (p : K × V → Bool) (l : List (K × V)) :
    (l.filter fun a => !p a).length + (l.filter p).length = l.length := by
  induction l with
  | nil => rfl
  | cons a l ih =>
    by_cases h : p a <;> simp [List.filter_cons, h] <;> omega

/-- C2: with a pure predicate, `sweep(P)` removes exactly the entries whose
value (and key) satisfy `P` as evaluated against the collection's state at
the start of the call — the surviving entries are the start-of-call entry
list filtered by `¬P`, in order, with no entry skipped or visited twice —
returns the number of removed entries, and afterwards `has(k)` is `false` for
every removed key `k` (and no key becomes present that was not present
before). -/
theorem sweep_spec (c : Collection K V) (P : V → K → Bool) (hwf : c.WF) :
    (c.sweep P).2.entries = c.entries.filter (fun e => !(P e.2 e.1)) ∧
    (c.sweep P).1 = (c.entries.filter (fun e => P e.2 e.1)).length ∧
    (∀ k v, (k, v) ∈ c.entries → P v k = true → (c.sweep P).2.has k = false) ∧
    (∀ k, (c.sweep P).2.has k = true → c.has k = true) := by
  have hentries : (c.sweep P).2.entries = c.entries.filter (fun e => !(P e.2 e.1)) := by
    show (sweepGo P c.entries c).entries = _
    rw [sweepGo_entries]
    apply List.filter_congr
    intro e he
    by_cases hP : P e.2 e.1
    · simp only [hP, Bool.not_true]
      have : c.entries.any (fun x => P x.2 x.1 && x.1 = e.1) = true := by
        simp only [List.any_eq_true]
        exact ⟨e, he, by simp [hP]⟩
      simp [this]
    · simp only [hP, Bool.not_false]
      have : c.entries.any (fun x => P x.2 x.1 && x.1 = e.1) = false := by
        rw [Bool.eq_false_iff]
        intro hany
        simp only [List.any_eq_true, Bool.and_eq_true, decide_eq_true_eq] at hany
        obtain ⟨x, hx, hPx, hkx⟩ := hany
        have hxe : x = e := entry_eq_of_wf hwf hx he hkx
        exact hP (hxe ▸ hPx)
      simp [this]
  refine ⟨hentries, ?_, ?_, ?_⟩
  · have hsz : (c.sweep P).2.size = (c.entries.filter (fun e => !(P e.2 e.1))).length :=
      congrArg List.length hentries
    have hfst : (c.sweep P).1 = c.size - (c.sweep P).2.size := rfl
    rw [hfst, hsz]
    have := length_filter_not_add_length_filter (fun e => P e.2 e.1) c.entries
    simp only [size]
    omega
  · intro k v hmem hP
    rw [Bool.eq_false_iff]
    intro hhas
    simp only [has, hentries, List.any_eq_true, List.mem_filter, decide_eq_true_eq] at hhas
    obtain ⟨e, ⟨he, hne⟩, hk⟩ := hhas
    have : e = (k, v) := entry_eq_of_wf hwf he hmem (by simpa using hk)
    rw [this] at hne
    simp [hP] at hne
  · intro k hhas
    simp only [has, hentries, List.any_eq_true, List.mem_filter] at hhas ⊢
    obtain ⟨e, ⟨he, _⟩, hk⟩ := hhas
    exact ⟨e, he, hk⟩

/-- Witness for C2: sweeping the even values out of `{a:1, b:2, c:3, d:4}`
removes exactly `b` and `d`, returns `2`, and the removed keys are gone. -/
theorem sweep_spec_witness :
    ((Collection.mk [("a", 1), ("b", 2), ("c", 3), ("d", 4)] : Collection String Nat).sweep
        (fun v _ => v % 2 == 0)).1 = 2 ∧
    ((Collection.mk [("a", 1), ("b", 2), ("c", 3), ("d", 4)] : Collection String Nat).sweep
        (fun v _ => v % 2 == 0)).2.entries = [("a", 1), ("c", 3)] ∧
    ((Collection.mk [("a", 1), ("b", 2), ("c", 3), ("d", 4)] : Collection String Nat).sweep
        (fun v _ => v % 2 == 0)).2.has "b" = false := by
  have h := sweep_spec (Collection.mk [("a", 1), ("b", 2), ("c", 3), ("d", 4)])
    (fun v _ => v % 2 == 0) (by decide)
  refine ⟨?_, ?_, ?_⟩
  · rw [h.2.1]; decide
  · rw [h.1]; decide
  · exact h.2.2.1 "b" 2 (by decide) (by decide)

/-! ### `first` / `firstKey` / `last` / `lastKey` (claim C3)

Source:

```
public first(amount?: number): V | V[] | undefined {
  if (typeof amount === 'undefined') return this.values().next().value;
  if (amount < 0) return this.last(amount * -1);
  amount = Math.min(this.size, amount);
  const iter = this.values();
  return Array.from({ length: amount }, (): V => iter.next().value);
}
public last(amount?: number): V | V[] | undefined {
  const arr = [...this.values()];
  if (typeof amount === 'undefined') return arr[arr.length - 1];
  if (amount < 0) return this.first(amount * -1);
  if (!amount) return [];
  return arr.slice(-amount);
}
```

`firstKey`/`lastKey` are identical with `keys()` in place of `values()`, so
all four are embedded through two list-level helpers.  The `first`/`last`
mutual delegation bottoms out after one hop (the forwarded amount is
positive), so each delegated call runs the nonnegative branch of its target;
the embedding therefore splits each method into its nonnegative body and a
sign dispatch.  `arr.slice(-amount)` for a positive `amount` is
`arr.drop (arr.length - amount)`. -/

/-- The `amount >= 0` body of `first`: `Math.min(size, amount)` values taken
from the front. -/
def firstArrNonneg {α : Type} (arr : List α) (amount : Int) : List α :=
  arr.take (min arr.length amount.toNat)

/-- The `amount >= 0` body of `last`: `[]` when `!amount`, else
`arr.slice(-amount)`. -/
def lastArrNonneg {α : Type} (arr : List α) (amount : Int) : List α :=
  if amount = 0 then [] else arr.drop (arr.length - amount.toNat)

/-- Models `first(amount)` over an already materialised element array. -/
def firstArr {α : Type} (arr : List α) (amount : Int) : List α :=
  if amount < 0 then lastArrNonneg arr (-amount) else firstArrNonneg arr amount

/-- Models `last(amount)` over an already materialised element array. -/
def lastArr {α : Type} (arr : List α) (amount : Int) : List α :=
  if amount < 0 then firstArrNonneg arr (-amount) else lastArrNonneg arr amount

/-- Models `first()` with no amount: `this.values().next().value`. -/
def first0 (c : Collection K V) : Option V := c.valuesList.head?

/-- Models `firstKey()` with no amount: `this.keys().next().value`. -/
def firstKey0 (c : Collection K V) : Option K := c.keysList.head?

/-- Models `last()` with no amount: `arr[arr.length - 1]`. -/
def last0 (c : Collection K V) : Option V := c.valuesList[c.valuesList.length - 1]?

/-- Models `lastKey()` with no amount: `arr[arr.length - 1]`. -/
def lastKey0 (c : Collection K V) : Option K := c.keysList[c.keysList.length - 1]?

/-- Models `first(amount)`. -/
def first (c : Collection K V) (amount : Int) : List V := firstArr c.valuesList amount

/-- Models `firstKey(amount)`. -/
def firstKey (c : Collection K V) (amount : Int) : List K := firstArr c.keysList amount

/-- Models `last(amount)`. -/
def last (c : Collection K V) (amount : Int) : List V := lastArr c.valuesList amount

/-- Models `lastKey(amount)`. -/
def lastKey (c : Collection K V) (amount : Int) : List K := lastArr c.keysList amount

theorem take_min_length {α : Type} (l : List α) (n : Nat) :
    l.take (min l.length n) = l.take n := by
  rcases Nat.le_total l.length n with h | h
  · rw [Nat.min_eq_left h, List.take_length, List.take_of_length_le h]
  · rw [Nat.min_eq_right h]

theorem firstArr_ofNat {α : Type} (arr : List α) (n : Nat) :
    firstArr arr (n : Int) = arr.take n := by
  simp [firstArr, firstArrNonneg, take_min_length]

theorem lastArr_ofNat {α : Type} (arr : List α) (n : Nat) :
    lastArr arr (n : Int) = arr.drop (arr.length - n) := by
  rcases Nat.eq_zero_or_pos n with h | h
  · subst h
    simp [lastArr, lastArrNonneg]
  · have h0 : ¬((n : Int) < 0) := by omega
    have h1 : ¬((n : Int) = 0) := by omega
    simp [lastArr, lastArrNonneg, h0, h1]

theorem firstArr_neg {α : Type} (arr : List α) (m : Int) :
    firstArr arr (-m) = lastArr arr m := by
  rcases lt_trichotomy m 0 with h | h | h
  · have h1 : ¬(-m < 0) := by omega
    simp [firstArr, lastArr, h, h1]
  · subst h
    simp [firstArr, lastArr, firstArrNonneg, lastArrNonneg]
  · have h1 : -m < 0 := by omega
    have h2 : ¬(m < 0) := by omega
    simp [firstArr, lastArr, h1, h2]

theorem lastArr_neg {α : Type} (arr : List α) (m : Int) :
    lastArr arr (-m) = firstArr arr m := by
  rcases lt_trichotomy m 0 with h | h | h
  · have h1 : ¬(-m < 0) := by omega
    simp [firstArr, lastArr, h, h1]
  · subst h
    simp [firstArr, lastArr, firstArrNonneg, lastArrNonneg]
  · have h1 : -m < 0 := by omega
    have h2 : ¬(m < 0) := by omega
    simp [firstArr, lastArr, h1, h2]

/-- C3: `first()` is the value at order-position 0 (`none` when empty);
`first(n)` for `n ≥ 0` is the first `min(n, size)` values in iteration order;
`last(n)` for `n ≥ 0` is the last `min(n, size)` values in iteration order;
`first(-m)` agrees with `last(m)` and `last(-m)` with `first(m)`; and
`firstKey`/`lastKey` mirror all of this over keys. -/
theorem first_last_spec (c : Collection K V) (n : Nat) (m : Int) :
    c.first0 = c.valuesList[0]? ∧
    c.last0 = c.valuesList.getLast? ∧
    c.first (n : Int) = c.valuesList.take n ∧
    (c.first (n : Int)).length = min n c.size ∧
    c.last (n : Int) = c.valuesList.drop (c.size - n) ∧
    (c.last (n : Int)).length = min n c.size ∧
    c.first (-m) = c.last m ∧
    c.last (-m) = c.first m ∧
    c.firstKey0 = c.keysList[0]? ∧
    c.lastKey0 = c.keysList.getLast? ∧
    c.firstKey (n : Int) = c.keysList.take n ∧
    (c.firstKey (n : Int)).length = min n c.size ∧
    c.lastKey (n : Int) = c.keysList.drop (c.size - n) ∧
    (c.lastKey (n : Int)).length = min n c.size ∧
    c.firstKey (-m) = c.lastKey m ∧
    c.lastKey (-m) = c.firstKey m := by
  have hv : c.size = c.valuesList.length := size_eq_length_values c
  have hk : c.size = c.keysList.length := size_eq_length_keys c
  refine ⟨?_, ?_, ?_, ?_, ?_, ?_, ?_, ?_, ?_, ?_, ?_, ?_, ?_, ?_, ?_, ?_⟩
  · simp [first0, List.head?_eq_getElem?]
  · simp [last0, List.getLast?_eq_getElem?]
  · exact firstArr_ofNat _ n
  · rw [first, firstArr_ofNat, List.length_take, hv, Nat.min_comm]
  · rw [last, lastArr_ofNat, hv]
  · rw [last, lastArr_ofNat, List.length_drop, hv]
    omega
  · exact firstArr_neg _ m
  · exact lastArr_neg _ m
  · simp [firstKey0, List.head?_eq_getElem?]
  · simp [lastKey0, List.getLast?_eq_getElem?]
  · exact firstArr_ofNat _ n
  · rw [firstKey, firstArr_ofNat, List.length_take, hk, Nat.min_comm]
  · rw [lastKey, lastArr_ofNat, hk]
  · rw [lastKey, lastArr_ofNat, List.length_drop, hk]
    omega
  · exact firstArr_neg _ m
  · exact lastArr_neg _ m

/-! ### `at` / `keyAt` (claim C4)

Source:

```
public at(index: number) {
  index = Math.floor(index);
  const arr = [...this.values()];
  return arr.at(index);
}
public keyAt(index: number) {
  index = Math.floor(index);
  const arr = [...this.keys()];
  return arr.at(index);
}
```

The index parameter is a JavaScript number; the inputs of interest here
(integers and simple fractions such as `-1.5`) are exactly representable, so
the index is modelled as a rational.  `Math.floor` is `Int.floor` (toward
negative infinity).  `Array.prototype.at` on the already-integral result
resolves a negative index relative to the end and returns `undefined` when
out of bounds in either direction. -/

/-- Models `Array.prototype.at` on an integer argument. -/
def arrayAt {α : Type} (arr : List α) (i : Int) : Option α :=
  if i < 0 then
    if 0 ≤ (arr.length : Int) + i then arr[((arr.length : Int) + i).toNat]? else none
  else arr[i.toNat]?

/-- Models `Collection#at(index)`; the method name is a Lean keyword, hence this name. -/
def atIndex (c : Collection K V) (index : ℚ) : Option V := arrayAt c.valuesList ⌊index⌋

/-- Models `Collection#keyAt(index)`. -/
def keyAt (c : Collection K V) (index : ℚ) : Option K := arrayAt c.keysList ⌊index⌋

/-- C4 is a code bug: the claim (and the method's own doc comment, which
promises behaviour identical to `Array.prototype.at`) says a fractional index
is truncated toward zero, so `at(-1.5)` behaves as `at(-1)` and returns the
last value.  The code instead applies `Math.floor`, which rounds `-1.5` down
to `-2`: on `{a:1, b:2, c:3}` the code returns `2` (the second-to-last value)
where the claim requires `3` (the last value, which is what `at(-1)`
returns). -/
theorem at_floor_code_bug :
    (Collection.mk [("a", 1), ("b", 2), ("c", 3)] : Collection String Nat).atIndex
        (-(3 / 2) : ℚ) = some 2 ∧
    (Collection.mk [("a", 1), ("b", 2), ("c", 3)] : Collection String Nat).atIndex
        (-1 : ℚ) = some 3 ∧
    (Collection.mk [("a", 1), ("b", 2), ("c", 3)] : Collection String Nat).atIndex
        (-(3 / 2) : ℚ) ≠
      (Collection.mk [("a", 1), ("b", 2), ("c", 3)] : Collection String Nat).atIndex
        (-1 : ℚ) := by
  have hfloor : (⌊(-(3 / 2) : ℚ)⌋ : Int) = -2 := by
    norm_num [Int.floor_eq_iff]
  have hfloor1 : (⌊(-1 : ℚ)⌋ : Int) = -1 := by
    norm_num
  refine ⟨?_, ?_, ?_⟩
  · simp [atIndex, hfloor, arrayAt, valuesList]
  · simp [atIndex, hfloor1, arrayAt, valuesList]
  · simp [atIndex, hfloor, hfloor1, arrayAt, valuesList]

/-! ### `random` / `randomKey` (claim C5)

Source:

```
public random(amount?: number): V | V[] | undefined {
  const arr = [...this.values()];
  if (typeof amount === 'undefined') return arr[Math.floor(Math.random() * arr.length)];
  if (!arr.length || !amount) return [];
  return Array.from(
    { length: Math.min(amount, arr.length) },
    (): V => arr.splice(Math.floor(Math.random() * arr.length), 1)[0],
  );
}
```

`Math.random()` is modelled by an oracle `r : Nat → Nat` of draws indexed by
invocation count; `Math.floor(Math.random() * arr.length)` is an arbitrary
in-range position, i.e. `r step % arr.length`.  Each draw `splice`s the
chosen element out of the pool before the next draw.  `randomKey` is the same
over `[...this.keys()]`. -/

/-- Models `arr.splice(i, 1)`: leaves `arr` without its `i`-th element. -/
def spliceOut {α : Type} (arr : List α) (i : Nat) : List α :=
  arr.take i ++ arr.drop (i + 1)

/-- The drawing loop of `random(amount)`: perform `n` draws, each removing
the drawn position from the pool. -/
def randomDrawGo {α : Type} (r : Nat → Nat) : Nat → List α → Nat → List α
  | _, _, 0 => []
  | step, pool, n + 1 =>
    (pool[r step % pool.length]?).toList ++
      randomDrawGo r (step + 1) (spliceOut pool (r step % pool.length)) n

/-- Models `random(amount)`. -/
def random (c : Collection K V) (r : Nat → Nat) (amount : Nat) : List V :=
  if c.valuesList.length = 0 ∨ amount = 0 then []
  else randomDrawGo r 0 c.valuesList (min amount c.valuesList.length)

/-- Models `random()` with no amount: `arr[Math.floor(Math.random() * arr.length)]`,
which is `undefined` on an empty collection. -/
def random0 (c : Collection K V) (r : Nat → Nat) : Option V :=
  c.valuesList[r 0 % c.valuesList.length]?

/-- Models `randomKey(amount)`. -/
def randomKey (c : Collection K V) (r : Nat → Nat) (amount : Nat) : List K :=
  if c.keysList.length = 0 ∨ amount = 0 then []
  else randomDrawGo r 0 c.keysList (min amount c.keysList.length)

/-- Models `randomKey()` with no amount. -/
def randomKey0 (c : Collection K V) (r : Nat → Nat) : Option K :=
  c.keysList[r 0 % c.keysList.length]?

theorem length_spliceOut {α : Type} (arr : List α) (i : Nat) (h : i < arr.length) :
    (spliceOut arr i).length = arr.length - 1 := by
  simp only [spliceOut, List.length_append, List.length_take, List.length_drop]
  omega

theorem perm_cons_spliceOut {α : Type} (arr : List α) (i : Nat) (h : i < arr.length) :
    arr.get ⟨i, h⟩ :: spliceOut arr i ~ arr := by
  have h2 : arr.get ⟨i, h⟩ :: arr.drop (i + 1) = arr.drop i := List.get_cons_drop arr ⟨i, h⟩
  calc arr.get ⟨i, h⟩ :: spliceOut arr i
      = arr.get ⟨i, h⟩ :: (arr.take i ++ arr.drop (i + 1)) := rfl
    _ ~ arr.take i ++ (arr.get ⟨i, h⟩ :: arr.drop (i + 1)) := List.perm_middle.symm
    _ = arr.take i ++ arr.drop i := by rw [h2]
    _ = arr := List.take_append_drop i arr

theorem length_randomDrawGo {α : Type} (r : Nat → Nat) (n : Nat) :
    ∀ (step : Nat) (pool : List α), n ≤ pool.length →
      (randomDrawGo r step pool n).length = n := by
  induction n with
  | zero => intro step pool _; rfl
  | succ n ih =>
    intro step pool hn
    have hpos : 0 < pool.length := by omega
    have hi : r step % pool.length < pool.length := Nat.mod_lt _ hpos
    have hget : pool[r step % pool.length]? = some (pool.get ⟨_, hi⟩) := by
      rw [List.getElem?_eq_getElem hi]
      rfl
    rw [randomDrawGo, hget]
    simp only [Option.toList_some, List.singleton_append, List.length_cons]
    rw [ih (step + 1) _ (by rw [length_spliceOut _ _ hi]; omega)]

theorem randomDrawGo_subperm {α : Type} (r : Nat → Nat) (n : Nat) :
    ∀ (step : Nat) (pool : List α), randomDrawGo r step pool n <+~ pool := by
  induction n with
  | zero => intro step pool; exact List.nil_subperm
  | succ n ih =>
    intro step pool
    rcases Nat.eq_zero_or_pos pool.length with hlen | hpos
    · have hnil : pool = [] := List.length_eq_zero.mp hlen
      subst hnil
      rw [randomDrawGo]
      simp only [List.getElem?_nil, Option.toList_none, List.nil_append]
      have hsp : spliceOut ([] : List α) (r step % ([] : List α).length) = [] := by
        simp [spliceOut]
      rw [hsp]
      exact ih (step + 1) []
    · have hi : r step % pool.length < pool.length := Nat.mod_lt _ hpos
      have hget : pool[r step % pool.length]? = some (pool.get ⟨_, hi⟩) := by
        rw [List.getElem?_eq_getElem hi]
        rfl
      rw [randomDrawGo, hget]
      simp only [Option.toList_some, List.singleton_append]
      have h1 : randomDrawGo r (step + 1) (spliceOut pool (r step % pool.length)) n <+~
          spliceOut pool (r step % pool.length) := ih (step + 1) _
      have h2 := (List.subperm_cons (pool.get ⟨_, hi⟩)).mpr h1
      exact h2.trans (perm_cons_spliceOut pool _ hi).subperm

theorem subperm_nodup {α : Type} {l₁ l₂ : List α} (h : l₁ <+~ l₂) (hn : l₂.Nodup) :
    l₁.Nodup := by
  obtain ⟨l, hperm, hsub⟩ := h
  exact hperm.nodup_iff.mp (hn.sublist hsub)

/-- C5: `random(n)` on an empty collection or with a zero count is `[]`; with
a positive count it returns exactly `min(n, size)` values; the returned list
is drawn without replacement — it is a sub-permutation of the value list, so
no draw position is chosen twice and at most `size` values are returned even
when `n > size`, and distinct stored values yield a duplicate-free sample;
`random()` with no count is a single value, `none` exactly when the
collection is empty.  `randomKey` behaves the same way over keys, whose
distinctness additionally makes the sampled keys duplicate-free. -/
theorem random_spec (c : Collection K V) (r : Nat → Nat) (n : Nat) :
    (c.size = 0 ∨ n = 0 → c.random r n = []) ∧
    (c.random r n).length = (if c.size = 0 ∨ n = 0 then 0 else min n c.size) ∧
    c.random r n <+~ c.valuesList ∧
    (c.valuesList.Nodup → (c.random r n).Nodup) ∧
    (c.size = 0 → c.random0 r = none) ∧
    (0 < c.size → ∃ v ∈ c.valuesList, c.random0 r = some v) ∧
    (c.randomKey r n).length = (if c.size = 0 ∨ n = 0 then 0 else min n c.size) ∧
    c.randomKey r n <+~ c.keysList ∧
    (c.WF → (c.randomKey r n).Nodup) ∧
    (c.size = 0 → c.randomKey0 r = none) ∧
    (0 < c.size → ∃ k ∈ c.keysList, c.randomKey0 r = some k) := by
  have hv : c.size = c.valuesList.length := size_eq_length_values c
  have hk : c.size = c.keysList.length := size_eq_length_keys c
  have hsubv : c.random r n <+~ c.valuesList := by
    by_cases h : c.valuesList.length = 0 ∨ n = 0
    · simp only [random, if_pos h]
      exact List.nil_subperm
    · rw [random, if_neg h]
      exact randomDrawGo_subperm r _ 0 _
  have hsubk : c.randomKey r n <+~ c.keysList := by
    by_cases h : c.keysList.length = 0 ∨ n = 0
    · simp only [randomKey, if_pos h]
      exact List.nil_subperm
    · rw [randomKey, if_neg h]
      exact randomDrawGo_subperm r _ 0 _
  refine ⟨?_, ?_, hsubv, ?_, ?_, ?_, ?_, hsubk, ?_, ?_, ?_⟩
  · intro h
    have h' : c.valuesList.length = 0 ∨ n = 0 := by omega
    rw [random, if_pos h']
  · by_cases h : c.size = 0 ∨ n = 0
    · have h' : c.valuesList.length = 0 ∨ n = 0 := by omega
      rw [random, if_pos h', if_pos h]
      rfl
    · have h' : ¬(c.valuesList.length = 0 ∨ n = 0) := by omega
      rw [random, if_neg h', if_neg h,
        length_randomDrawGo r _ 0 _ (Nat.min_le_right _ _), hv]
  · intro hnd
    exact subperm_nodup hsubv hnd
  · intro h
    have h' : c.valuesList = [] := List.length_eq_zero.mp (by omega)
    simp [random0, h']
  · intro h
    have hpos : 0 < c.valuesList.length := by omega
    have hi : r 0 % c.valuesList.length < c.valuesList.length := Nat.mod_lt _ hpos
    refine ⟨c.valuesList.get ⟨_, hi⟩, List.get_mem _ _ hi, ?_⟩
    rw [random0, List.getElem?_eq_getElem hi]
    rfl
  · by_cases h : c.size = 0 ∨ n = 0
    · have h' : c.keysList.length = 0 ∨ n = 0 := by omega
      rw [randomKey, if_pos h', if_pos h]
      rfl
    · have h' : ¬(c.keysList.length = 0 ∨ n = 0) := by omega
      rw [randomKey, if_neg h', if_neg h,
        length_randomDrawGo r _ 0 _ (Nat.min_le_right _ _), hk]
  · intro hwf
    exact subperm_nodup hsubk hwf
  · intro h
    have h' : c.keysList = [] := List.length_eq_zero.mp (by omega)
    simp [randomKey0, h']
  · intro h
    have hpos : 0 < c.keysList.length := by omega
    have hi : r 0 % c.keysList.length < c.keysList.length := Nat.mod_lt _ hpos
    refine ⟨c.keysList.get ⟨_, hi⟩, List.get_mem _ _ hi, ?_⟩
    rw [randomKey0, List.getElem?_eq_getElem hi]
    rfl

/-- Witness for C5: on the empty collection `random(3)` is `[]` and
`random()` is `none`; on `{1:10, 2:20}` with an arbitrary oracle, `random()`
returns a stored value. -/
theorem random_spec_witness :
    (Collection.mk [] : Collection Nat Nat).random (fun _ => 0) 3 = [] ∧
    (Collection.mk [] : Collection Nat Nat).random0 (fun _ => 0) = none ∧
    (∃ v ∈ (Collection.mk [(1, 10), (2, 20)] : Collection Nat Nat).valuesList,
      (Collection.mk [(1, 10), (2, 20)] : Collection Nat Nat).random0 (fun _ => 1) =
        some v) := by
  refine ⟨?_, ?_, ?_⟩
  · exact (random_spec (Collection.mk []) (fun _ => 0) 3).1 (Or.inl rfl)
  · exact (random_spec (Collection.mk []) (fun _ => 0) 3).2.2.2.2.1 rfl
  · exact (random_spec (Collection.mk [(1, 10), (2, 20)] : Collection Nat Nat)
      (fun _ => 1) 3).2.2.2.2.2.1 (by decide)

/-! ### `ensure` (claim C10)

Source:

```
public ensure(key: K, defaultValueGenerator: (key: K, collection: this) => V): V {
  if (this.has(key)) return this.get(key)!;
  const defaultValue = defaultValueGenerator(key, this);
  this.set(key, defaultValue);
  return defaultValue;
}
```

The default-value generator is an arbitrary, possibly side-effecting
callback; its effects are modelled by threading an explicit effect state `σ`
through the one call the source makes, so "invoked exactly once" versus "not
invoked" is visible as the final effect state.  The result is
(returned value, collection after the call, effect state after the call);
the returned value is an `Option` because the present-key branch returns
`this.get(key)!`. -/

/-- Models `Collection#ensure(key, defaultValueGenerator)`. -/
def ensure {σ : Type} (c : Collection K V) (k : K)
    (gen : σ → K → Collection K V → σ × V) (s : σ) :
    Option V × Collection K V × σ :=
  if c.has k then (c.get k, c, s)
  else
    let sd := gen s k c
    (some sd.2, c.set k sd.2, sd.1)

/-- C10: if the key is present, `ensure` returns the stored value and leaves
both the collection and the generator's effect state untouched (the
generator is never invoked); if the key is absent, it invokes the generator
exactly once (the final effect state is that of a single call), appends the
generated value under the key at the end of the order, grows the size by
one, and returns the generated value. -/
theorem ensure_spec {σ : Type} (c : Collection K V) (k : K)
    (gen : σ → K → Collection K V → σ × V) (s : σ) :
    (c.has k = true →
      c.ensure k gen s = (c.get k, c, s) ∧ ∃ v, c.get k = some v) ∧
    (c.has k = false →
      c.ensure k gen s =
        (some (gen s k c).2,
         Collection.mk (c.entries ++ [(k, (gen s k c).2)]),
         (gen s k c).1) ∧
      (c.ensure k gen s).2.1.size = c.size + 1) := by
  constructor
  · intro h
    refine ⟨?_, exists_get_of_has h⟩
    rw [ensure, if_pos h]
  · intro h
    have habs : ¬(c.has k = true) := by simp [h]
    have hset : c.set k (gen s k c).2 =
        Collection.mk (c.entries ++ [(k, (gen s k c).2)]) := by
      rw [set, if_neg habs]
    have hmain : c.ensure k gen s =
        (some (gen s k c).2,
         Collection.mk (c.entries ++ [(k, (gen s k c).2)]),
         (gen s k c).1) := by
      rw [ensure, if_neg habs, ← hset]
    refine ⟨hmain, ?_⟩
    rw [hmain]
    simp [size]

/-- Witness for C10: on `{1:10}` with a counting effect state, `ensure 1`
returns the stored `10` without touching the state, and `ensure 2` runs the
generator once, appending `2 ↦ 100`. -/
theorem ensure_spec_witness :
    ((Collection.mk [(1, 10)] : Collection Nat Nat).ensure 1
        (fun s _ _ => (s + 1, 100)) 0 = (some 10, Collection.mk [(1, 10)], 0)) ∧
    ((Collection.mk [(1, 10)] : Collection Nat Nat).ensure 2
        (fun s _ _ => (s + 1, 100)) 0 =
      (some 100, Collection.mk [(1, 10), (2, 100)], 1)) := by
  constructor
  · have h := (ensure_spec (Collection.mk [(1, 10)] : Collection Nat Nat) 1
      (fun s _ _ => (s + 1, 100)) 0).1 (by decide)
    rw [h.1]
    rfl
  · have h := (ensure_spec (Collection.mk [(1, 10)] : Collection Nat Nat) 2
      (fun s _ _ => (s + 1, 100)) 0).2 (by decide)
    rw [h.1]
    rfl

/-! ### `intersect` / `difference` (claim C9)

Source:

```
public intersect(other: Collection<K, V>) {
  const coll = new this.constructor[Symbol.species]<K, V>();
  for (const [k, v] of other) {
    if (this.has(k)) coll.set(k, v);
  }
  return coll;
}
public difference(other: Collection<K, V>) {
  const coll = new this.constructor[Symbol.species]<K, V>();
  for (const [k, v] of other) {
    if (!this.has(k)) coll.set(k, v);
  }
  for (const [k, v] of this) {
    if (!other.has(k)) coll.set(k, v);
  }
  return coll;
}
```

Both build a fresh collection by folding `set` over the iterated entries. -/

/-- Models `Collection#intersect(other)`; the receiver is `c`. -/
def intersect (c other : Collection K V) : Collection K V :=
  other.entries.foldl (fun acc e => if c.has e.1 then acc.set e.1 e.2 else acc)
    (Collection.mk [])

/-- Models `Collection#difference(other)`, the receiver being `c`: the first loop runs
over `other`, the second over the receiver, both into the same fresh
collection. -/
def difference (c other : Collection K V) : Collection K V :=
  c.entries.foldl (fun acc e => if !(other.has e.1) then acc.set e.1 e.2 else acc)
    (other.entries.foldl (fun acc e => if !(c.has e.1) then acc.set e.1 e.2 else acc)
      (Collection.mk []))

theorem keysList_set (c : Collection K V) (k : K) (v : V) :
    (c.set k v).keysList = if c.has k = true then c.keysList else c.keysList ++ [k] := by
  by_cases h : c.has k = true
  · rw [if_pos h, set, if_pos h]
    simp only [keysList, List.map_map]
    apply List.map_congr_left
    intro e _
    by_cases he : e.1 = k <;> simp [he]
  · rw [if_neg h, set, if_neg h]
    simp [keysList]

theorem has_set_iff (c : Collection K V) (k k' : K) (v : V) :
    (c.set k v).has k' = true ↔ (c.has k' = true ∨ k = k') := by
  rw [has_iff_mem_keys, keysList_set]
  by_cases h : c.has k = true
  · rw [if_pos h]
    rw [← has_iff_mem_keys]
    constructor
    · exact Or.inl
    · rintro (h' | rfl)
      · exact h'
      · exact h
  · rw [if_neg h]
    rw [List.mem_append]
    rw [← has_iff_mem_keys, List.mem_singleton]
    exact or_congr Iff.rfl ⟨fun hh => hh.symm, fun hh => hh.symm⟩

theorem has_mk (l : List (K × V)) (k : K) :
    (Collection.mk l).has k = l.any (fun e => e.1 = k) := rfl

theorem get_eq_none_iff (c : Collection K V) (k : K) :
    c.get k = none ↔ c.has k = false := by
  rw [get, Option.map_eq_none', List.find?_eq_none, has, Bool.eq_false_iff]
  constructor
  · intro h hany
    rw [List.any_eq_true] at hany
    obtain ⟨e, he, hk⟩ := hany
    exact h e he hk
  · intro h e he hk
    exact h (List.any_eq_true.mpr ⟨e, he, hk⟩)

/-- The common shape of the `intersect`/`difference` loops: folding
`if P e then set e.1 e.2` over an entry list with no-duplicate keys, all of
them fresh for the accumulator, appends exactly the entries satisfying `P`. -/
theorem foldl_setIf_entries (P : K × V → Bool) (l : List (K × V)) :
    ∀ (acc : Collection K V), (∀ e ∈ l, acc.has e.1 = false) →
      (l.map Prod.fst).Nodup →
      (l.foldl (fun acc e => if P e then acc.set e.1 e.2 else acc) acc).entries =
        acc.entries ++ l.filter P := by
  induction l with
  | nil => intro acc _ _; simp
  | cons e l ih =>
    intro acc hdisj hnd
    have hae : acc.has e.1 = false := hdisj e (List.mem_cons_self e l)
    rw [List.foldl_cons]
    by_cases hP : P e = true
    · rw [if_pos hP]
      have hset : (acc.set e.1 e.2).entries = acc.entries ++ [e] := by
        rw [set, if_neg (by simp [hae])]
      have hdisj' : ∀ x ∈ l, (acc.set e.1 e.2).has x.1 = false := by
        intro x hx
        rw [Bool.eq_false_iff]
        intro hx'
        rcases (has_set_iff acc e.1 x.1 e.2).mp hx' with h1 | h1
        · rw [hdisj x (List.mem_cons_of_mem e hx)] at h1
          exact Bool.false_ne_true h1
        · exact (List.nodup_cons.mp hnd).1 (h1 ▸ List.mem_map_of_mem Prod.fst hx)
      rw [ih (acc.set e.1 e.2) hdisj' (List.nodup_cons.mp hnd).2, hset]
      simp [List.filter_cons, hP]
    · rw [if_neg hP]
      rw [ih acc (fun x hx => hdisj x (List.mem_cons_of_mem e hx))
        (List.nodup_cons.mp hnd).2]
      simp [List.filter_cons, hP]

theorem intersect_entries (A B : Collection K V) (hB : B.WF) :
    (A.intersect B).entries = B.entries.filter (fun e => A.has e.1) := by
  rw [intersect, foldl_setIf_entries _ _ (Collection.mk []) (fun e _ => rfl) hB]
  rfl

theorem difference_entries (A B : Collection K V) (hA : A.WF) (hB : B.WF) :
    (A.difference B).entries =
      B.entries.filter (fun e => !(A.has e.1)) ++
        A.entries.filter (fun e => !(B.has e.1)) := by
  have hinner : (B.entries.foldl
      (fun acc e => if !(A.has e.1) then acc.set e.1 e.2 else acc)
      (Collection.mk [])).entries = B.entries.filter (fun e => !(A.has e.1)) := by
    rw [foldl_setIf_entries _ _ (Collection.mk []) (fun e _ => rfl) hB]
    rfl
  have hdisj : ∀ e ∈ A.entries,
      (B.entries.foldl (fun acc e => if !(A.has e.1) then acc.set e.1 e.2 else acc)
        (Collection.mk [])).has e.1 = false := by
    intro e he
    rw [Bool.eq_false_iff]
    intro hh
    rw [has, hinner, List.any_eq_true] at hh
    obtain ⟨x, hx, hxk⟩ := hh
    rw [List.mem_filter] at hx
    have hxk' : x.1 = e.1 := by simpa using hxk
    have hA1 : A.has e.1 = true :=
      has_eq_true_of_mem (show (e.1, e.2) ∈ A.entries by simpa using he)
    rw [← hxk'] at hA1
    rw [hA1] at hx
    simp at hx
  rw [difference, foldl_setIf_entries _ _ _ hdisj hA, hinner]

theorem wf_filter {c : Collection K V} (hc : c.WF) (p : K × V → Bool) :
    (Collection.mk (c.entries.filter p)).WF :=
  List.Nodup.sublist (List.Sublist.map Prod.fst (List.filter_sublist c.entries)) hc

theorem exists_entry_of_has {c : Collection K V} {k : K} (h : c.has k = true) :
    ∃ e ∈ c.entries, e.1 = k := by
  rw [has, List.any_eq_true] at h
  obtain ⟨e, he, hk⟩ := h
  exact ⟨e, he, by simpa using hk⟩

theorem has_intersect_iff (A B : Collection K V) (hB : B.WF) (k : K) :
    (A.intersect B).has k = true ↔ (A.has k = true ∧ B.has k = true) := by
  constructor
  · intro h
    rw [has, intersect_entries A B hB, List.any_eq_true] at h
    obtain ⟨e, he, hek⟩ := h
    rw [List.mem_filter] at he
    have hek' : e.1 = k := by simpa using hek
    refine ⟨hek' ▸ he.2, hek' ▸ ?_⟩
    exact has_eq_true_of_mem (show (e.1, e.2) ∈ B.entries by simpa using he.1)
  · rintro ⟨hA, hBk⟩
    obtain ⟨e, heB, hek⟩ := exists_entry_of_has hBk
    rw [has, intersect_entries A B hB, List.any_eq_true]
    refine ⟨e, List.mem_filter.mpr ⟨heB, ?_⟩, by simpa using hek⟩
    show A.has e.1 = true
    rw [hek]
    exact hA

theorem has_difference_iff (A B : Collection K V) (hA : A.WF) (hB : B.WF) (k : K) :
    (A.difference B).has k = true ↔
      ((A.has k = true ∧ B.has k = false) ∨ (B.has k = true ∧ A.has k = false)) := by
  constructor
  · intro h
    rw [has, difference_entries A B hA hB, List.any_eq_true] at h
    obtain ⟨e, he, hek⟩ := h
    have hek' : e.1 = k := by simpa using hek
    rw [List.mem_append] at he
    rcases he with he | he
    · rw [List.mem_filter] at he
      have hBk : B.has k = true :=
        hek' ▸ has_eq_true_of_mem (show (e.1, e.2) ∈ B.entries by simpa using he.1)
      have hAk : A.has k = false := by
        rw [← hek']
        simpa using he.2
      exact Or.inr ⟨hBk, hAk⟩
    · rw [List.mem_filter] at he
      have hAk : A.has k = true :=
        hek' ▸ has_eq_true_of_mem (show (e.1, e.2) ∈ A.entries by simpa using he.1)
      have hBk : B.has k = false := by
        rw [← hek']
        simpa using he.2
      exact Or.inl ⟨hAk, hBk⟩
  · intro h
    rw [has, difference_entries A B hA hB, List.any_eq_true]
    rcases h with ⟨hAk, hBk⟩ | ⟨hBk, hAk⟩
    · obtain ⟨e, heA, hek⟩ := exists_entry_of_has hAk
      refine ⟨e, List.mem_append.mpr (Or.inr (List.mem_filter.mpr ⟨heA, ?_⟩)),
        by simpa using hek⟩
      show (!(B.has e.1)) = true
      rw [hek, hBk]
      rfl
    · obtain ⟨e, heB, hek⟩ := exists_entry_of_has hBk
      refine ⟨e, List.mem_append.mpr (Or.inl (List.mem_filter.mpr ⟨heB, ?_⟩)),
        by simpa using hek⟩
      show (!(A.has e.1)) = true
      rw [hek, hAk]
      rfl

theorem get_intersect (A B : Collection K V) (hB : B.WF) (k : K) :
    (A.intersect B).get k = (if A.has k = true then B.get k else none) := by
  have hwfI : (A.intersect B).WF := by
    have h := wf_filter hB (fun e => A.has e.1)
    show ((A.intersect B).entries.map Prod.fst).Nodup
    rw [intersect_entries A B hB]
    exact h
  by_cases hA : A.has k = true
  · rw [if_pos hA]
    cases hBk : B.get k with
    | some v =>
      have hmem : (k, v) ∈ B.entries := (get_eq_some_iff_of_wf hB).mp hBk
      have hmemI : (k, v) ∈ (A.intersect B).entries := by
        rw [intersect_entries A B hB]
        exact List.mem_filter.mpr ⟨hmem, by simpa using hA⟩
      exact (get_eq_some_iff_of_wf hwfI).mpr hmemI
    | none =>
      rw [get_eq_none_iff] at hBk ⊢
      rw [Bool.eq_false_iff]
      intro hh
      obtain ⟨hA', hB'⟩ := (has_intersect_iff A B hB k).mp hh
      rw [hBk] at hB'
      exact Bool.false_ne_true hB'
  · rw [if_neg hA]
    rw [get_eq_none_iff, Bool.eq_false_iff]
    intro hh
    exact hA ((has_intersect_iff A B hB k).mp hh).1

theorem wf_difference (A B : Collection K V) (hA : A.WF) (hB : B.WF) :
    (A.difference B).WF := by
  show ((A.difference B).entries.map Prod.fst).Nodup
  rw [difference_entries A B hA hB, List.map_append]
  rw [List.nodup_append]
  refine ⟨List.Nodup.sublist (List.Sublist.map Prod.fst (List.filter_sublist _)) hB,
    List.Nodup.sublist (List.Sublist.map Prod.fst (List.filter_sublist _)) hA, ?_⟩
  intro k hk1 hk2
  rw [List.mem_map] at hk1 hk2
  obtain ⟨e1, he1, hke1⟩ := hk1
  obtain ⟨e2, he2, hke2⟩ := hk2
  rw [List.mem_filter] at he1 he2
  have hA1 : A.has e2.1 = true :=
    has_eq_true_of_mem (show (e2.1, e2.2) ∈ A.entries by simpa using he2.1)
  have hA2 : (!(A.has e1.1)) = true := he1.2
  rw [hke1] at hA2
  rw [hke2] at hA1
  rw [hA1] at hA2
  exact Bool.false_ne_true hA2

theorem get_difference_left (A B : Collection K V) (hA : A.WF) (hB : B.WF) (k : K)
    (hAk : A.has k = true) (hBk : B.has k = false) :
    (A.difference B).get k = A.get k := by
  obtain ⟨v, hv⟩ := exists_get_of_has hAk
  rw [hv]
  apply (get_eq_some_iff_of_wf (wf_difference A B hA hB)).mpr
  rw [difference_entries A B hA hB, List.mem_append]
  refine Or.inr (List.mem_filter.mpr ⟨(get_eq_some_iff_of_wf hA).mp hv, ?_⟩)
  show (!(B.has k)) = true
  rw [hBk]
  rfl

theorem get_difference_right (A B : Collection K V) (hA : A.WF) (hB : B.WF) (k : K)
    (hBk : B.has k = true) (hAk : A.has k = false) :
    (A.difference B).get k = B.get k := by
  obtain ⟨v, hv⟩ := exists_get_of_has hBk
  rw [hv]
  apply (get_eq_some_iff_of_wf (wf_difference A B hA hB)).mpr
  rw [difference_entries A B hA hB, List.mem_append]
  refine Or.inl (List.mem_filter.mpr ⟨(get_eq_some_iff_of_wf hB).mp hv, ?_⟩)
  show (!(A.has k)) = true
  rw [hAk]
  rfl

/-- C9: `A.intersect(B)` holds exactly the keys present in both collections
(with values from the argument `B`), `A.difference(B)` holds exactly the keys
present in exactly one of the two (with each value from whichever collection
holds the key), and consequently `A.intersect(B)`/`B.intersect(A)` and
`A.difference(B)`/`B.difference(A)` have identical key sets. -/
theorem intersect_difference_spec (A B : Collection K V) (hA : A.WF) (hB : B.WF) :
    (∀ k, (A.intersect B).has k = (A.has k && B.has k)) ∧
    (∀ k, (A.intersect B).has k = (B.intersect A).has k) ∧
    (∀ k, (A.intersect B).get k = (if A.has k = true then B.get k else none)) ∧
    (∀ k, (A.difference B).has k =
      ((A.has k && !(B.has k)) || (B.has k && !(A.has k)))) ∧
    (∀ k, (A.difference B).has k = (B.difference A).has k) ∧
    (∀ k, A.has k = true → B.has k = false → (A.difference B).get k = A.get k) ∧
    (∀ k, B.has k = true → A.has k = false → (A.difference B).get k = B.get k) := by
  have hABi : ∀ k, (A.intersect B).has k = (A.has k && B.has k) := by
    intro k
    rw [Bool.eq_iff_iff, Bool.and_eq_true]
    exact has_intersect_iff A B hB k
  have hBAi : ∀ k, (B.intersect A).has k = (B.has k && A.has k) := by
    intro k
    rw [Bool.eq_iff_iff, Bool.and_eq_true]
    exact has_intersect_iff B A hA k
  have hABd : ∀ k, (A.difference B).has k =
      ((A.has k && !(B.has k)) || (B.has k && !(A.has k))) := by
    intro k
    rw [Bool.eq_iff_iff]
    rw [Bool.or_eq_true, Bool.and_eq_true, Bool.and_eq_true,
      Bool.not_eq_true', Bool.not_eq_true']
    exact has_difference_iff A B hA hB k
  have hBAd : ∀ k, (B.difference A).has k =
      ((B.has k && !(A.has k)) || (A.has k && !(B.has k))) := by
    intro k
    rw [Bool.eq_iff_iff]
    rw [Bool.or_eq_true, Bool.and_eq_true, Bool.and_eq_true,
      Bool.not_eq_true', Bool.not_eq_true']
    exact has_difference_iff B A hB hA k
  refine ⟨hABi, ?_, get_intersect A B hB, hABd, ?_,
    get_difference_left A B hA hB, get_difference_right A B hA hB⟩
  · intro k
    rw [hABi k, hBAi k, Bool.and_comm]
  · intro k
    rw [hABd k, hBAd k, Bool.or_comm]

/-- Witness for C9 on `A = {1:10, 2:20}`, `B = {2:200, 3:300}`: the
intersection key set is `{2}` on both sides, the symmetric difference key
set is `{1, 3}` on both sides, and the values come from the collection that
holds the key. -/
theorem intersect_difference_spec_witness :
    ((Collection.mk [(1, 10), (2, 20)] : Collection Nat Nat).intersect
        (Collection.mk [(2, 200), (3, 300)])).has 2 = true ∧
    ((Collection.mk [(1, 10), (2, 20)] : Collection Nat Nat).intersect
        (Collection.mk [(2, 200), (3, 300)])).get 2 = some 200 ∧
    ((Collection.mk [(1, 10), (2, 20)] : Collection Nat Nat).difference
        (Collection.mk [(2, 200), (3, 300)])).has 1 =
      ((Collection.mk [(2, 200), (3, 300)] : Collection Nat Nat).difference
        (Collection.mk [(1, 10), (2, 20)])).has 1 ∧
    ((Collection.mk [(1, 10), (2, 20)] : Collection Nat Nat).difference
        (Collection.mk [(2, 200), (3, 300)])).get 3 = some 300 := by
  have h := intersect_difference_spec
    (Collection.mk [(1, 10), (2, 20)] : Collection Nat Nat)
    (Collection.mk [(2, 200), (3, 300)]) (by decide) (by decide)
  refine ⟨?_, ?_, h.2.2.2.2.1 1, ?_⟩
  · rw [h.1 2]
    decide
  · rw [h.2.2.1 2]
    decide
  · rw [h.2.2.2.2.2.2 3 (by decide) (by decide)]
    decide

end Collection

/-! ### The cached-array variant of the class (claim C6)

The second source file keeps two cached derived views:

```
public set(key: K, value: V): this {
  this._array = null;
  this._keyArray = null;
  return super.set(key, value);
}
public delete(key: K): boolean {
  this._array = null;
  this._keyArray = null;
  return super.delete(key);
}
public array(): V[] {
  if (!this._array || this._array.length !== this.size) this._array = [...this.values()];
  return this._array;
}
public keyArray(): K[] {
  if (!this._keyArray || this._keyArray.length !== this.size) this._keyArray = [...this.keys()];
  return this._keyArray;
}
```

The state is the entry list plus the two nullable caches; `array`/`keyArray`
return a value and the state after the call (they may write the cache). -/

/-- The cached-array `Collection`: entry list plus the `_array` and
`_keyArray` caches (`none` is JavaScript `null`). -/
structure CachedCollection (K V : Type) where
  entries : List (K × V)
  _array : Option (List V)
  _keyArray : Option (List K)

namespace CachedCollection

variable {K V : Type} [DecidableEq K]

/-- The constructor: `super(entries)` with both caches initialised to `null`. -/
def construct (entries : List (K × V)) : CachedCollection K V := ⟨entries, none, none⟩

/-- Models `set(key, value)`: discard both caches, then `super.set`. -/
def set (c : CachedCollection K V) (k : K) (v : V) : CachedCollection K V :=
  { entries := ((Collection.mk c.entries).set k v).entries
    _array := none
    _keyArray := none }

/-- Models `delete(key)`: discard both caches, then `super.delete`. -/
def delete (c : CachedCollection K V) (k : K) : CachedCollection K V :=
  { entries := ((Collection.mk c.entries).delete k).entries
    _array := none
    _keyArray := none }

/-- Models `array()`: rebuild the cache when it is `null` or its length differs from
the current size, then return it. -/
def array (c : CachedCollection K V) : List V × CachedCollection K V :=
  match c._array with
  | some a =>
    if a.length ≠ c.entries.length then
      (c.entries.map Prod.snd, { c with _array := some (c.entries.map Prod.snd) })
    else (a, c)
  | none => (c.entries.map Prod.snd, { c with _array := some (c.entries.map Prod.snd) })

/-- Models `keyArray()`: rebuild the cache when it is `null` or its length differs
from the current size, then return it. -/
def keyArray (c : CachedCollection K V) : List K × CachedCollection K V :=
  match c._keyArray with
  | some ka =>
    if ka.length ≠ c.entries.length then
      (c.entries.map Prod.fst, { c with _keyArray := some (c.entries.map Prod.fst) })
    else (ka, c)
  | none => (c.entries.map Prod.fst, { c with _keyArray := some (c.entries.map Prod.fst) })

/-- One public call touching the caches. -/
inductive Op (K V : Type) where
  | setOp (k : K) (v : V)
  | delOp (k : K)
  | arrayOp
  | keyArrayOp

/-- Run one call, keeping the resulting state. -/
def applyOp (c : CachedCollection K V) : Op K V → CachedCollection K V
  | .setOp k v => c.set k v
  | .delOp k => c.delete k
  | .arrayOp => (c.array).2
  | .keyArrayOp => (c.keyArray).2

/-- Run a sequence of calls from a starting state. -/
def applyOps (c : CachedCollection K V) (ops : List (Op K V)) : CachedCollection K V :=
  ops.foldl applyOp c

/-- Cache soundness: any populated cache holds exactly the current values
(respectively keys) in current order. -/
def CacheOK (c : CachedCollection K V) : Prop :=
  (∀ a, c._array = some a → a = c.entries.map Prod.snd) ∧
  (∀ ka, c._keyArray = some ka → ka = c.entries.map Prod.fst)

theorem cacheOK_construct (l : List (K × V)) : CacheOK (construct l) :=
  And.intro (fun _ h => nomatch h) (fun _ h => nomatch h)

theorem cacheOK_set (c : CachedCollection K V) (k : K) (v : V) :
    CacheOK (c.set k v) :=
  And.intro (fun _ h => nomatch h) (fun _ h => nomatch h)

theorem cacheOK_delete (c : CachedCollection K V) (k : K) :
    CacheOK (c.delete k) :=
  And.intro (fun _ h => nomatch h) (fun _ h => nomatch h)

theorem array_snd_entries (c : CachedCollection K V) :
    (c.array).2.entries = c.entries := by
  unfold array
  split
  · split
    · rfl
    · rfl
  · rfl

theorem keyArray_snd_entries (c : CachedCollection K V) :
    (c.keyArray).2.entries = c.entries := by
  unfold keyArray
  split
  · split
    · rfl
    · rfl
  · rfl

theorem cacheOK_applyOp {c : CachedCollection K V} (hc : CacheOK c) (op : Op K V) :
    CacheOK (applyOp c op) := by
  cases op with
  | setOp k v => exact cacheOK_set c k v
  | delOp k => exact cacheOK_delete c k
  | arrayOp =>
    show CacheOK (c.array).2
    unfold array
    split
    · split
      · exact And.intro (fun a h => by injection h with h2; exact h2.symm) hc.2
      · exact hc
    · exact And.intro (fun a h => by injection h with h2; exact h2.symm) hc.2
  | keyArrayOp =>
    show CacheOK (c.keyArray).2
    unfold keyArray
    split
    · split
      · exact And.intro hc.1 (fun ka h => by injection h with h2; exact h2.symm)
      · exact hc
    · exact And.intro hc.1 (fun ka h => by injection h with h2; exact h2.symm)

theorem cacheOK_applyOps {c : CachedCollection K V} (hc : CacheOK c)
    (ops : List (Op K V)) : CacheOK (applyOps c ops) := by
  induction ops generalizing c with
  | nil => exact hc
  | cons op ops ih => exact ih (cacheOK_applyOp hc op)

theorem array_fst_of_cacheOK {c : CachedCollection K V} (hc : CacheOK c) :
    (c.array).1 = c.entries.map Prod.snd := by
  unfold array
  split
  next a heq =>
    split
    · rfl
    · exact hc.1 a heq
  next heq => rfl

theorem keyArray_fst_of_cacheOK {c : CachedCollection K V} (hc : CacheOK c) :
    (c.keyArray).1 = c.entries.map Prod.fst := by
  unfold keyArray
  split
  next ka heq =>
    split
    · rfl
    · exact hc.2 ka heq
  next heq => rfl

/-- C6: starting from a freshly constructed collection, after any sequence of
`set`/`delete`/`array`/`keyArray` calls, `array()` returns exactly the
current values and `keyArray()` exactly the current keys, in current
iteration order — a stale view is never returned; every `set` and every
`delete` discards both cached views; and a populated cache whose length
disagrees with the current size is not reused — `array()` rebuilds from the
current entries instead. -/
theorem array_cache_spec (init : List (K × V)) (ops : List (Op K V)) :
    ((applyOps (construct init) ops).array).1 =
      (applyOps (construct init) ops).entries.map Prod.snd ∧
    ((applyOps (construct init) ops).keyArray).1 =
      (applyOps (construct init) ops).entries.map Prod.fst ∧
    (∀ (c : CachedCollection K V) (k : K) (v : V),
      (c.set k v)._array = none ∧ (c.set k v)._keyArray = none) ∧
    (∀ (c : CachedCollection K V) (k : K),
      (c.delete k)._array = none ∧ (c.delete k)._keyArray = none) ∧
    (∀ (c : CachedCollection K V) (a : List V), c._array = some a →
      a.length ≠ c.entries.length → (c.array).1 = c.entries.map Prod.snd) := by
  have hok : CacheOK (applyOps (construct init) ops) :=
    cacheOK_applyOps (cacheOK_construct init) ops
  refine ⟨array_fst_of_cacheOK hok, keyArray_fst_of_cacheOK hok,
    fun _ _ _ => ⟨rfl, rfl⟩, fun _ _ => ⟨rfl, rfl⟩, ?_⟩
  intro c a ha hl
  unfold array
  split
  next a2 heq =>
    rw [ha] at heq
    injection heq with h2
    subst h2
    rw [if_pos hl]
  next => rfl

/-- Witness for C6: after `set a 1; set b 2; delete a`, `array()` is `[2]`
and `keyArray()` is `[b]`; a cache of the wrong length is rebuilt. -/
theorem array_cache_spec_witness :
    ((applyOps (construct ([] : List (Nat × Nat)))
        [Op.setOp 1 10, Op.arrayOp, Op.setOp 2 20, Op.delOp 1]).array).1 = [20] ∧
    ((applyOps (construct ([] : List (Nat × Nat)))
        [Op.setOp 1 10, Op.arrayOp, Op.setOp 2 20, Op.delOp 1]).keyArray).1 = [2] ∧
    (CachedCollection.mk [(1, 10)] (some []) none : CachedCollection Nat Nat).array.1 =
      [10] := by
  have h := array_cache_spec ([] : List (Nat × Nat))
    [Op.setOp 1 10, Op.arrayOp, Op.setOp 2 20, Op.delOp 1]
  refine ⟨?_, ?_, ?_⟩
  · rw [h.1]
    rfl
  · rw [h.2.1]
    rfl
  · have h5 := h.2.2.2.2 (CachedCollection.mk [(1, 10)] (some []) none) [] rfl
      (by decide)
    rw [h5]
    rfl

end CachedCollection

/-! ### Reference-level model for the aliasing claims (C7, C8)

`clone()` and `sorted()` promise that the returned container is a *new*
object and that mutating it leaves the receiver untouched, while `sort()`
promises to reorder the *receiver itself*.  These are statements about
object identity, so they are modelled over an explicit heap: a list of map
cells addressed by references.  Source:

```
public clone() {
  return new this.constructor[Symbol.species](this);
}
public sort(compareFunction = Collection.defaultSort) {
  const entries = [...this.entries()];
  entries.sort((a, b): number => compareFunction(a[1], b[1], a[0], b[0]));
  super.clear();
  for (const [k, v] of entries) super.set(k, v);
  return this;
}
public sorted(compareFunction = Collection.defaultSort) {
  return new this.constructor[Symbol.species](this).sort((av, bv, ak, bk) => compareFunction(av, bv, ak, bk));
}
public equals(collection) {
  if (!collection) return false;
  if (this === collection) return true;
  if (this.size !== collection.size) return false;
  for (const [key, value] of this) {
    if (!collection.has(key) || value !== collection.get(key)) return false;
  }
  return true;
}
```

`entries.sort(comparator)` is modelled by a stable comparator-driven sort
(`List.mergeSort` on `comparator ≤ 0`), matching the ECMAScript contract for
a consistent comparator.  The `Map` constructor used by `clone` sets each of
the argument's entries, in order, into a freshly allocated cell. -/

structure Heap (K V : Type) where
  cells : List (List (K × V))

namespace Heap

variable {K V : Type} [DecidableEq K]

/-- Dereference: the entry list stored in cell `r`. -/
def read (h : Heap K V) (r : Nat) : List (K × V) := (h.cells[r]?).getD []

/-- Overwrite cell `r` in place. -/
def write (h : Heap K V) (r : Nat) (l : List (K × V)) : Heap K V := ⟨h.cells.set r l⟩

/-- Allocate a fresh cell holding `l`; returns the new heap and the new
reference. -/
def alloc (h : Heap K V) (l : List (K × V)) : Heap K V × Nat :=
  (⟨h.cells ++ [l]⟩, h.cells.length)

/-- Models `new Collection(entries)`: the `Map` constructor sets each entry in
order into an empty map. -/
def newCollection (l : List (K × V)) : Collection K V :=
  l.foldl (fun acc e => acc.set e.1 e.2) (Collection.mk [])

/-- Models `clone()`: allocate a new map populated from the receiver's entries. -/
def clone (h : Heap K V) (r : Nat) : Heap K V × Nat :=
  h.alloc (newCollection (h.read r)).entries

/-- Models `Map#set` through a reference, mutating the referenced cell. -/
def setRef (h : Heap K V) (r : Nat) (k : K) (v : V) : Heap K V :=
  h.write r ((Collection.mk (h.read r)).set k v).entries

/-- Models `Map#delete` through a reference, mutating the referenced cell. -/
def deleteRef (h : Heap K V) (r : Nat) (k : K) : Heap K V :=
  h.write r ((Collection.mk (h.read r)).delete k).entries

/-- Models the `equals(other)` body after the null check: identity short-circuit, then
size comparison, then per-entry `has`/`get` comparison. -/
def equalsList [DecidableEq V] (l₁ l₂ : List (K × V)) : Bool :=
  if l₁.length ≠ l₂.length then false
  else l₁.all (fun e =>
    (Collection.mk l₂).has e.1 && decide ((Collection.mk l₂).get e.1 = some e.2))

/-- Models `equals(other)` through references. -/
def equalsRef [DecidableEq V] (h : Heap K V) (r other : Nat) : Bool :=
  if r = other then true else equalsList (h.read r) (h.read other)

/-- The comparator applied to two entries:
`compareFunction(a[1], b[1], a[0], b[0]) <= 0`. -/
def cmpLe (cmp : V → V → K → K → Int) (a b : K × V) : Bool :=
  cmp a.2 b.2 a.1 b.1 ≤ 0

/-- Models `entries.sort(comparator)`: a stable sort driven by the comparator. -/
def sortEntries (cmp : V → V → K → K → Int) (l : List (K × V)) : List (K × V) :=
  l.insertionSort (fun a b => cmpLe cmp a b = true)

/-- Models `sort(comparator)`: reorder the receiver's cell in place, return the
receiver's own reference. -/
def sortRef (h : Heap K V) (r : Nat) (cmp : V → V → K → K → Int) : Heap K V × Nat :=
  (h.write r (sortEntries cmp (h.read r)), r)

/-- Models `sorted(comparator)`: `new this.constructor[Symbol.species](this).sort(...)`. -/
def sortedRef (h : Heap K V) (r : Nat) (cmp : V → V → K → K → Int) : Heap K V × Nat :=
  sortRef (h.clone r).1 (h.clone r).2 cmp

theorem read_alloc_old (h : Heap K V) (l : List (K × V)) {r : Nat}
    (hr : r < h.cells.length) : (h.alloc l).1.read r = h.read r := by
  simp [alloc, read, List.getElem?_append_left hr]

theorem read_alloc_new (h : Heap K V) (l : List (K × V)) :
    (h.alloc l).1.read (h.alloc l).2 = l := by
  simp [alloc, read, List.getElem?_concat_length]

theorem read_write_self (h : Heap K V) {r : Nat} (hr : r < h.cells.length)
    (l : List (K × V)) : (h.write r l).read r = l := by
  simp [write, read, List.getElem?_set_self (by simpa using hr)]

theorem read_write_ne (h : Heap K V) {r r2 : Nat} (hne : r ≠ r2)
    (l : List (K × V)) : (h.write r l).read r2 = h.read r2 := by
  simp [write, read, List.getElem?_set_ne hne]

theorem newCollection_entries_go (l : List (K × V)) :
    ∀ (acc : Collection K V), (∀ e ∈ l, acc.has e.1 = false) →
      (l.map Prod.fst).Nodup →
      (l.foldl (fun acc e => acc.set e.1 e.2) acc).entries = acc.entries ++ l := by
  induction l with
  | nil => intro acc _ _; simp
  | cons e l ih =>
    intro acc hdisj hnd
    have hae : acc.has e.1 = false := hdisj e (List.mem_cons_self e l)
    rw [List.foldl_cons]
    have hset : (acc.set e.1 e.2).entries = acc.entries ++ [e] := by
      rw [Collection.set, if_neg (by simp [hae])]
    have hdisj' : ∀ x ∈ l, (acc.set e.1 e.2).has x.1 = false := by
      intro x hx
      rw [Bool.eq_false_iff]
      intro hx'
      rcases (Collection.has_set_iff acc e.1 x.1 e.2).mp hx' with h1 | h1
      · rw [hdisj x (List.mem_cons_of_mem e hx)] at h1
        exact Bool.false_ne_true h1
      · exact (List.nodup_cons.mp hnd).1 (h1 ▸ List.mem_map_of_mem Prod.fst hx)
    rw [ih (acc.set e.1 e.2) hdisj' (List.nodup_cons.mp hnd).2, hset]
    simp

theorem newCollection_entries {l : List (K × V)} (hnd : (l.map Prod.fst).Nodup) :
    (newCollection l).entries = l := by
  rw [newCollection, newCollection_entries_go l (Collection.mk []) (fun e _ => rfl) hnd]
  rfl

theorem equalsList_refl [DecidableEq V] {l : List (K × V)}
    (hnd : (l.map Prod.fst).Nodup) : equalsList l l = true := by
  rw [equalsList, if_neg (by simp)]
  rw [List.all_eq_true]
  intro e he
  have h1 : (Collection.mk l).has e.1 = true :=
    Collection.has_eq_true_of_mem (show (e.1, e.2) ∈ l by simpa using he)
  have h2 : (Collection.mk l).get e.1 = some e.2 :=
    (Collection.get_eq_some_iff_of_wf hnd).mpr (by simpa using he)
  simp [h1, h2]

/-- C7: `clone()` returns a *new* container (a fresh reference) holding the
receiver's entries unchanged and in the same order (a shallow copy — the very
same values, not copies); `clone().equals(receiver)` is `true`; and
subsequently inserting into or deleting from the clone leaves the receiver's
cell — its size and contents — untouched. -/
theorem clone_spec [DecidableEq V] (h : Heap K V) (r : Nat) (k : K) (v : V)
    (hr : r < h.cells.length) (hwf : ((h.read r).map Prod.fst).Nodup) :
    (h.clone r).2 ≠ r ∧
    (h.clone r).1.read (h.clone r).2 = h.read r ∧
    equalsRef (h.clone r).1 (h.clone r).2 r = true ∧
    ((h.clone r).1.setRef (h.clone r).2 k v).read r = h.read r ∧
    ((h.clone r).1.deleteRef (h.clone r).2 k).read r = h.read r ∧
    (((h.clone r).1.setRef (h.clone r).2 k v).read r).length = (h.read r).length := by
  have hrefeq : (h.clone r).2 = h.cells.length := rfl
  have hne : (h.clone r).2 ≠ r := by omega
  have hnew : (h.clone r).1.read (h.clone r).2 = h.read r := by
    show (h.alloc (newCollection (h.read r)).entries).1.read
      (h.alloc (newCollection (h.read r)).entries).2 = h.read r
    rw [read_alloc_new, newCollection_entries hwf]
  have hold : (h.clone r).1.read r = h.read r := read_alloc_old h _ hr
  have hset : ((h.clone r).1.setRef (h.clone r).2 k v).read r = h.read r := by
    rw [setRef, read_write_ne _ hne, hold]
  refine ⟨hne, hnew, ?_, hset, ?_, by rw [hset]⟩
  · rw [equalsRef, if_neg hne, hnew, hold]
    exact equalsList_refl hwf
  · rw [deleteRef, read_write_ne _ hne, hold]

/-- Witness for C7 on the heap holding the single collection `{1:10, 2:20}`:
the clone reads back the same entries, compares equal to the original, and
inserting `3 ↦ 30` into the clone leaves the original cell unchanged. -/
theorem clone_spec_witness :
    ((Heap.mk [[(1, 10), (2, 20)]] : Heap Nat Nat).clone 0).2 ≠ 0 ∧
    ((Heap.mk [[(1, 10), (2, 20)]] : Heap Nat Nat).clone 0).1.read
        ((Heap.mk [[(1, 10), (2, 20)]] : Heap Nat Nat).clone 0).2 = [(1, 10), (2, 20)] ∧
    equalsRef ((Heap.mk [[(1, 10), (2, 20)]] : Heap Nat Nat).clone 0).1
        ((Heap.mk [[(1, 10), (2, 20)]] : Heap Nat Nat).clone 0).2 0 = true ∧
    (((Heap.mk [[(1, 10), (2, 20)]] : Heap Nat Nat).clone 0).1.setRef
        ((Heap.mk [[(1, 10), (2, 20)]] : Heap Nat Nat).clone 0).2 3 30).read 0 =
      [(1, 10), (2, 20)] := by
  have h := clone_spec (Heap.mk [[(1, 10), (2, 20)]] : Heap Nat Nat) 0 3 30
    (by decide) (by decide)
  have hread : (Heap.mk [[(1, 10), (2, 20)]] : Heap Nat Nat).read 0 = [(1, 10), (2, 20)] := rfl
  exact ⟨h.1, by rw [h.2.1, hread], h.2.2.1, by rw [h.2.2.2.1, hread]⟩

/-- C8: `sort(comparator)` returns the receiver's own reference and
physically reorders the receiver's cell in place; the reordering is a
permutation of the entries, sorted according to the comparator whenever the
comparator is transitive and total; `sorted(comparator)` returns a *new*
reference whose cell holds that same reordering while the receiver's cell is
left completely unmodified. -/
theorem sort_sorted_spec (h : Heap K V) (r : Nat) (cmp : V → V → K → K → Int)
    (hr : r < h.cells.length) (hwf : ((h.read r).map Prod.fst).Nodup) :
    (h.sortRef r cmp).2 = r ∧
    (h.sortRef r cmp).1.read r = sortEntries cmp (h.read r) ∧
    (sortEntries cmp (h.read r)).Perm (h.read r) ∧
    (h.sortedRef r cmp).2 ≠ r ∧
    (h.sortedRef r cmp).1.read r = h.read r ∧
    (h.sortedRef r cmp).1.read (h.sortedRef r cmp).2 = sortEntries cmp (h.read r) ∧
    ((∀ a b c : K × V, cmpLe cmp a b = true → cmpLe cmp b c = true →
        cmpLe cmp a c = true) →
      (∀ a b : K × V, cmpLe cmp a b = true ∨ cmpLe cmp b a = true) →
      (sortEntries cmp (h.read r)).Pairwise (fun a b => cmpLe cmp a b = true)) := by
  have hrefeq : (h.clone r).2 = h.cells.length := rfl
  have hne : (h.clone r).2 ≠ r := by omega
  have hnew : (h.clone r).1.read (h.clone r).2 = h.read r := by
    show (h.alloc (newCollection (h.read r)).entries).1.read
      (h.alloc (newCollection (h.read r)).entries).2 = h.read r
    rw [read_alloc_new, newCollection_entries hwf]
  have hold : (h.clone r).1.read r = h.read r := read_alloc_old h _ hr
  have hlt : (h.clone r).2 < (h.clone r).1.cells.length := by
    show h.cells.length < (h.cells ++ [(newCollection (h.read r)).entries]).length
    simp
  refine ⟨rfl, read_write_self h hr _, List.perm_insertionSort _ _, hne, ?_, ?_, ?_⟩
  · show ((h.clone r).1.write (h.clone r).2
      (sortEntries cmp ((h.clone r).1.read (h.clone r).2))).read r = h.read r
    rw [read_write_ne _ hne, hold]
  · show ((h.clone r).1.write (h.clone r).2
      (sortEntries cmp ((h.clone r).1.read (h.clone r).2))).read (h.clone r).2 =
        sortEntries cmp (h.read r)
    rw [read_write_self _ hlt, hnew]
  · intro htrans htotal
    haveI : IsTrans (K × V) (fun a b => cmpLe cmp a b = true) := ⟨htrans⟩
    haveI : IsTotal (K × V) (fun a b => cmpLe cmp a b = true) := ⟨htotal⟩
    exact List.sorted_insertionSort _ _

/-- Witness for C8 on the spec's own example `{a:3, b:2, c:1}` with the
ascending numeric comparator: `sort` reorders the receiver's cell to values
`[1,2,3]`, while `sorted` leaves the receiver at `[3,2,1]` and produces a new
cell ordered `[1,2,3]`. -/
theorem sort_sorted_spec_witness :
    ((Heap.mk [[(1, 3), (2, 2), (3, 1)]] : Heap Nat Int).sortRef 0
        (fun x y _ _ => x - y)).1.read 0 = [(3, 1), (2, 2), (1, 3)] ∧
    ((Heap.mk [[(1, 3), (2, 2), (3, 1)]] : Heap Nat Int).sortedRef 0
        (fun x y _ _ => x - y)).1.read 0 = [(1, 3), (2, 2), (3, 1)] ∧
    ((Heap.mk [[(1, 3), (2, 2), (3, 1)]] : Heap Nat Int).sortedRef 0
        (fun x y _ _ => x - y)).1.read
      ((Heap.mk [[(1, 3), (2, 2), (3, 1)]] : Heap Nat Int).sortedRef 0
        (fun x y _ _ => x - y)).2 = [(3, 1), (2, 2), (1, 3)] ∧
    ((Heap.mk [[(1, 3), (2, 2), (3, 1)]] : Heap Nat Int).sortedRef 0
        (fun x y _ _ => x - y)).2 ≠ 0 := by
  have h := sort_sorted_spec (Heap.mk [[(1, 3), (2, 2), (3, 1)]] : Heap Nat Int) 0
    (fun x y _ _ => x - y) (by decide) (by decide)
  have hsort : sortEntries (fun x y _ _ => x - y)
      ((Heap.mk [[(1, 3), (2, 2), (3, 1)]] : Heap Nat Int).read 0) =
      [(3, 1), (2, 2), (1, 3)] := by decide
  have hread : (Heap.mk [[(1, 3), (2, 2), (3, 1)]] : Heap Nat Int).read 0 =
      [(1, 3), (2, 2), (3, 1)] := rfl
  exact ⟨by rw [h.2.1, hsort], by rw [h.2.2.2.2.1, hread],
    by rw [h.2.2.2.2.2.1, hsort], h.2.2.2.1⟩

end Heap

end DJS
